import Mathlib

/-!
Verification development for the curated-transformers repository.

The development shallowly embeds the Python sources:

* `curated_transformers/models/albert/encoder.py` (`AlbertEncoder`):
  construction-time divisibility check, grouped layer application with
  weight sharing, and default attention-mask derivation.
* `curated_transformers/models/llama/decoder.py` (`LlamaDecoder`):
  construction-time check for missing rotary-embedding parameters.
* `curated_transformers/tokenization/bbpe_encoder.py`
  (`byte_bpe_encoder_forward`): BOS/EOS/UNK validation and the ragged
  piece-id outputs.
* The transformer decoder stack with key/value caching, which the spec
  describes but whose implementation is not among the sampled sources;
  it is modelled from the spec (marked `Modelled from the spec:`).

Tensors are embedded as nested lists over an arbitrary commutative
scalar ring `R` standing in for the floating-point reals (exact
arithmetic, so "equal within floating tolerance" becomes exact
equality, and concrete witnesses instantiate `R := ℤ`); nonlinear
position-wise functions whose values are irrational (softmax, RMS
norm, the sinusoidal rotary rotation, the activation) are abstracted
as function parameters, while all structure the claims speak about
(orderings, offsets, concatenation, masking, grouping) is explicit.
-/

namespace CuratedTransformers

/-- A vector (one tensor row) over the scalar ring `R`, which stands
in for the real numbers: every property proved is structural and holds
for an arbitrary commutative ring of scalars. -/
abbrev Vec (R : Type) := List R

/-- A matrix as a list of rows. -/
abbrev Mat (R : Type) := List (Vec R)

/-- Dot product; zips the two vectors (positions beyond the shorter
vector contribute nothing). -/
def dot {R : Type} [CommRing R] (u v : Vec R) : R :=
  ((u.zip v).map fun p => p.1 * p.2).sum

/-- Matrix-vector product: one dot product per row. -/
def matVec {R : Type} [CommRing R] (m : Mat R) (v : Vec R) : Vec R :=
  m.map fun r => dot r v

/-- Element-wise vector addition (residual connections). -/
def vecAdd {R : Type} [CommRing R] (u v : Vec R) : Vec R :=
  (u.zip v).map fun p => p.1 + p.2

/-- Weighted sum of a list of vectors: `Σ wᵢ • vᵢ`, accumulated
pairwise with `vecAdd` on the scaled vectors (a single summand is the
scaled vector itself, so the result keeps the vectors' width). -/
def wsum {R : Type} [CommRing R] : List R → List (Vec R) → Vec R
  | [w], v :: _ => v.map fun x => w * x
  | w :: ws, v :: vs => vecAdd (v.map fun x => w * x) (wsum ws vs)
  | _, _ => []

end CuratedTransformers

namespace CuratedTransformers.Albert

/-- Layer section of `AlbertConfig` (the two fields `AlbertEncoder.__init__`
reads from `config.layer`). -/
structure AlbertLayerConfig where
  num_hidden_layers : Nat
  num_hidden_groups : Nat

/-- The slice of `AlbertConfig` that `AlbertEncoder.__init__` reads:
`padding_id`, `model_max_length`, and the layer section. The embedding
and attention sections only parameterise the abstract submodules. -/
structure AlbertConfig where
  padding_id : Int
  model_max_length : Nat
  layer : AlbertLayerConfig

/-- The constructed `AlbertEncoder` module state: the fields
`__init__` assigns. Submodules (`BertEmbeddings`, `AlbertLayerGroup`)
are abstracted by the type parameter `G`; `groups` is the
`torch.nn.ModuleList` of `num_hidden_groups` freshly built groups. -/
structure AlbertEncoder (G : Type) where
  padding_id : Int
  max_seq_len : Nat
  num_hidden_layers : Nat
  groups : List G

/-- The error message raised by `AlbertEncoder.__init__` when the layer
count is not divisible by the group count. -/
def albertDivisibilityError (layers groups : Nat) : String :=
  "The number of hidden layers (" ++ toString layers ++ ") in the " ++
  "ALBERT encoder must be divisable by number of hidden groups (" ++
  toString groups ++ ")"

/-- Model of `AlbertEncoder.__init__`: raises `ValueError` when
`num_hidden_layers % num_hidden_groups != 0`, before any submodule is
built; otherwise builds one `AlbertLayerGroup` per group
(`mkGroup k` stands for the group module constructed at iteration `k`
of the list comprehension). -/
def AlbertEncoder.Init {G : Type} (config : AlbertConfig) (mkGroup : Nat → G) :
    Except String (AlbertEncoder G) :=
  if config.layer.num_hidden_layers % config.layer.num_hidden_groups ≠ 0 then
    .error (albertDivisibilityError config.layer.num_hidden_layers
      config.layer.num_hidden_groups)
  else
    .ok { padding_id := config.padding_id
          max_seq_len := config.model_max_length
          num_hidden_layers := config.layer.num_hidden_layers
          groups := (List.range config.layer.num_hidden_groups).map mkGroup }

/-- A boolean attention mask over a batch: one row of booleans per
batch row (the `bool_mask` tensor wrapped by `AttentionMask`). -/
abbrev BoolMask := List (List Bool)

/-- Element-wise `Tensor.ne` against a scalar: true where the id
differs from the scalar. -/
def tensorNe (x : List (List Int)) (c : Int) : BoolMask :=
  x.map fun row => row.map fun t => decide (t ≠ c)

/-- Model of `AlbertEncoder._create_attention_mask`: the mask is
`x.ne(self.padding_id)`. -/
def AlbertEncoder.create_attention_mask {G : Type} (m : AlbertEncoder G)
    (x : List (List Int)) : BoolMask :=
  tensorNe x m.padding_id

/-- The mask the forward pass actually uses: the supplied one, or the
derived one when none is supplied (the `if attention_mask is None`
branch of `AlbertEncoder.forward`). -/
def AlbertEncoder.usedMask {G : Type} (m : AlbertEncoder G)
    (input_ids : List (List Int)) (attention_mask : Option BoolMask) : BoolMask :=
  match attention_mask with
  | none => m.create_attention_mask input_ids
  | some am => am

/-- The inner loop of `AlbertEncoder.forward`: apply one group module
`n` times (`for _ in range(layers_per_group)`), threading
`layer_output` and collecting every intermediate output. Returns the
final `layer_output` together with the outputs appended in order. -/
def applyGroupN {H : Type} (app : H → H) : Nat → H → H × List H
  | 0, h => (h, [])
  | n + 1, h =>
      let h2 := app h
      let r := applyGroupN app n h2
      (r.1, h2 :: r.2)

/-- The outer loop of `AlbertEncoder.forward`: `for group in
self.groups`, running the inner loop for each group in order and
threading `layer_output` across groups. -/
def runGroups {G H : Type} (app : G → H → H) (lpg : Nat) :
    List G → H → List H
  | [], _ => []
  | g :: gs, h =>
      let r := applyGroupN (app g) lpg h
      r.2 ++ runGroups app lpg gs r.1

/-- The result object of `AlbertEncoder.forward`. -/
structure ModelOutput (H : Type) where
  embedding_output : H
  layer_hidden_states : List H

/-- Model of `AlbertEncoder.forward`: derive the mask when absent, embed,
then run `layers_per_group = num_hidden_layers // len(groups)`
iterations of every group in order, each layer consuming the previous
layer's output. `embed` stands for the `BertEmbeddings` submodule and
`app g mask h` for calling group module `g` on hidden states `h`. -/
def AlbertEncoder.forward {G H : Type} (m : AlbertEncoder G)
    (embed : List (List Int) → H) (app : G → BoolMask → H → H)
    (input_ids : List (List Int)) (attention_mask : Option BoolMask) :
    ModelOutput H :=
  let mask := m.usedMask input_ids attention_mask
  let embeddings := embed input_ids
  let lpg := m.num_hidden_layers / m.groups.length
  { embedding_output := embeddings
    layer_hidden_states := runGroups (fun g => app g mask) lpg m.groups embeddings }

/-- The layer-position chain: `chainFrom f i n h` applies `f i`, then
`f (i+1)`, ... for `n` steps starting from `h`, collecting each
output. Layer position `i` consumes layer position `i - 1`'s output. -/
def chainFrom {H : Type} (f : Nat → H → H) (i : Nat) : Nat → H → List H
  | 0, _ => []
  | n + 1, h =>
      let h2 := f i h
      h2 :: chainFrom f (i + 1) n h2

/-- The value threaded out of the layer-position chain: `chainLast f i
n h` is the hidden state after applying `f i`, ..., `f (i + n - 1)` in
order starting from `h`. -/
def chainLast {H : Type} (f : Nat → H → H) (i : Nat) : Nat → H → H
  | 0, h => h
  | n + 1, h => chainLast f (i + 1) n (f i h)

end CuratedTransformers.Albert

namespace CuratedTransformers.Llama

/-- Rotary-embedding section of the attention config (the two fields
`LlamaDecoder.__init__` reads from it). -/
structure RotaryEmbeddingConfig where
  rotary_fraction : ℚ
  rotary_base : ℚ

/-- Attention section of `LlamaConfig`, with the fields
`LlamaDecoder.__init__` reads; `rotary_embeddings` is optional
(`None` in Python when absent). -/
structure LlamaAttentionConfig where
  n_query_heads : Nat
  n_key_value_heads : Nat
  rotary_embeddings : Option RotaryEmbeddingConfig
  use_bias : Bool
  use_parallel_attention : Bool
  dropout_prob : ℚ

/-- Feed-forward section of `LlamaConfig`. -/
structure LlamaFeedForwardConfig where
  hidden_width : Nat
  intermediate_width : Nat
  use_bias : Bool
  use_gate : Bool

/-- Layer section of `LlamaConfig`. -/
structure LlamaLayerConfig where
  attention : LlamaAttentionConfig
  feedforward : LlamaFeedForwardConfig
  n_hidden_layers : Nat
  layer_norm_eps : ℚ
  dropout_prob : ℚ

/-- Embedding section of `LlamaConfig`. -/
structure LlamaEmbeddingConfig where
  embedding_width : Nat
  n_pieces : Nat
  dropout_prob : ℚ

/-- The Llama decoder configuration, as read by
`LlamaDecoder.__init__`. -/
structure LlamaConfig where
  embedding : LlamaEmbeddingConfig
  layer : LlamaLayerConfig

/-- Modelled from the spec: `AttentionHeads`, the immutable descriptor
holding the query head count and key/value head count (its class lives
in `curated_transformers/layers/attention.py`, which is not among the
sampled sources). -/
structure AttentionHeads where
  n_query_heads : Nat
  n_key_value_heads : Nat

/-- Modelled from the spec: `AttentionHeads.key_value_broadcast`, the
constructor for the grouped/multi-query variant where `n_key_value_heads`
heads are broadcast across `n_query_heads` query heads. -/
def AttentionHeads.key_value_broadcast (n_query_heads n_key_value_heads : Nat) :
    AttentionHeads :=
  { n_query_heads := n_query_heads, n_key_value_heads := n_key_value_heads }

/-- The shape-determining state of one constructed decoder layer: the
hyperparameters `LlamaDecoder.__init__` passes to `SelfAttention`,
`QueryKeyRotaryEmbeddings` and `PointwiseFeedForward`. -/
structure LlamaLayerModules where
  attention_heads : AttentionHeads
  rotary_fraction : ℚ
  rotary_base : ℚ
  rotary_head_width : Nat
  hidden_width : Nat
  intermediate_width : Nat
  use_gate : Bool
  use_parallel_attention : Bool

/-- The constructed `LlamaDecoder` module state. -/
structure LlamaDecoder where
  embedding_width : Nat
  n_pieces : Nat
  attention_heads : AttentionHeads
  layers : List LlamaLayerModules
  layer_norm_eps : ℚ

/-- The error message raised by `LlamaDecoder.__init__` when the
attention config has no rotary-embedding parameters. -/
def llamaRotaryError : String :=
  "Llama attention config does not contain rotary embedding parameters"

/-- Model of `LlamaDecoder.__init__`: builds the embeddings and the
attention-heads descriptor, then — before the layer list is built —
raises `ValueError` when `config.layer.attention.rotary_embeddings` is
`None`; otherwise builds `n_hidden_layers` identical-shaped layers. -/
def LlamaDecoder.Init (config : LlamaConfig) : Except String LlamaDecoder :=
  let hidden_width := config.layer.feedforward.hidden_width
  let n_query_heads := config.layer.attention.n_query_heads
  let attention_heads := AttentionHeads.key_value_broadcast
    n_query_heads config.layer.attention.n_key_value_heads
  match config.layer.attention.rotary_embeddings with
  | none => .error llamaRotaryError
  | some rotary =>
      .ok { embedding_width := config.embedding.embedding_width
            n_pieces := config.embedding.n_pieces
            attention_heads := attention_heads
            layers := List.replicate config.layer.n_hidden_layers
              { attention_heads := attention_heads
                rotary_fraction := rotary.rotary_fraction
                rotary_base := rotary.rotary_base
                rotary_head_width := hidden_width / n_query_heads
                hidden_width := hidden_width
                intermediate_width := config.layer.feedforward.intermediate_width
                use_gate := config.layer.feedforward.use_gate
                use_parallel_attention := config.layer.attention.use_parallel_attention }
            layer_norm_eps := config.layer.layer_norm_eps }

end CuratedTransformers.Llama

namespace CuratedTransformers.Attention

open CuratedTransformers

/-- Key/value projection weights of one key/value head. -/
structure KVWeights (R : Type) where
  wk : Mat R
  wv : Mat R
deriving DecidableEq

/-- Projection of a hidden-state sequence by one weight matrix. -/
def projSeq {R : Type} [CommRing R] (w : Mat R) (xs : List (Vec R)) :
    List (Vec R) :=
  xs.map (matVec w)

/-- Modelled from the spec: scaled-dot-product attention of a single
head (`SelfAttention` per-head computation from
`curated_transformers/layers/attention.py`, not among the sampled
sources). `normF` abstracts the row-wise softmax composed with the
`1 / sqrt(head_width)` scaling, both irrational. Each query position
attends over all key positions of the same head. -/
def headOutput {R : Type} [CommRing R] (normF : List R → List R)
    (wq : Mat R) (kv : KVWeights R) (xs : List (Vec R)) : List (Vec R) :=
  let qs := projSeq wq xs
  let ks := projSeq kv.wk xs
  let vs := projSeq kv.wv xs
  qs.map fun q => wsum (normF (ks.map (dot q))) vs

/-- Modelled from the spec: the broadcast step of grouped/multi-query
attention — every key/value head's projections are repeated
`groupSize` consecutive times so the key/value heads line up with the
query heads before scoring. -/
def broadcastKV {R : Type} (groupSize : Nat) (kvs : List (KVWeights R)) :
    List (KVWeights R) :=
  (kvs.map (List.replicate groupSize)).flatten

/-- Modelled from the spec: grouped attention with `wqs.length` query
heads and `kvs.length` key/value heads; the key/value projections are
broadcast up to the query head count before scoring, and the per-head
outputs are returned in head order. -/
def groupedAttention {R : Type} [CommRing R] (normF : List R → List R)
    (wqs : List (Mat R)) (kvs : List (KVWeights R)) (xs : List (Vec R)) :
    List (List (Vec R)) :=
  let bkvs := broadcastKV (wqs.length / kvs.length) kvs
  (wqs.zip bkvs).map fun p => headOutput normF p.1 p.2 xs

/-- Modelled from the spec: ungrouped multi-head attention — every
query head has its own key/value weights. -/
def ungroupedAttention {R : Type} [CommRing R] (normF : List R → List R)
    (wqs : List (Mat R)) (kvs : List (KVWeights R)) (xs : List (Vec R)) :
    List (List (Vec R)) :=
  (wqs.zip kvs).map fun p => headOutput normF p.1 p.2 xs

end CuratedTransformers.Attention

namespace CuratedTransformers.BBPE

/-- A spaCy token as read by `byte_bpe_encoder_forward`: its text and
its trailing whitespace (`token.whitespace_`). -/
structure Token where
  text : String
  whitespace_ : String

/-- A document is the token list iterated by `for idx, token in
enumerate(doc)`. -/
abbrev Doc := List Token

/-- The interface of `cutlery.ByteBPEProcessor` used by the encoder:
piece lookup and byte-BPE encoding (an external library, embedded
abstractly by its two operations). -/
structure ByteBPEProcessor where
  piece_id : String → Option Nat
  encode_as_ids : String → List Nat

/-- A `thinc.api.Ragged` value as built by the encoder: the flat
piece-id array and the per-token lengths array. -/
structure Ragged where
  data : List Nat
  lengths : List Nat
deriving DecidableEq, Repr

/-- The model attributes of `build_byte_bpe_encoder` that the forward
function reads. -/
structure BBPEModel where
  byte_bpe_processor : ByteBPEProcessor
  unk_piece : String
  bos_piece : String
  eos_piece : String

/-- The token loop of `byte_bpe_encoder_forward`: `prev` is
`doc[idx - 1]` (`none` exactly when `idx = 0`). For `idx > 0` the
encoded text is `doc[idx - 1].whitespace_ + token.text`, otherwise
`token.text`. Returns the concatenated piece ids and the per-token
length list. -/
def encodeTokens (bbp : ByteBPEProcessor) : Option Token → List Token →
    List Nat × List Nat
  | _, [] => ([], [])
  | prev, t :: rest =>
      let text := match prev with
        | some p => p.whitespace_ ++ t.text
        | none => t.text
      let piece_ids := bbp.encode_as_ids text
      let r := encodeTokens bbp (some t) rest
      (piece_ids ++ r.1, piece_ids.length :: r.2)

/-- The per-document body of `byte_bpe_encoder_forward`: `doc_pieces`
starts with the BOS id and ends with the EOS id; `lens` starts and
ends with `1` around the per-token piece counts. -/
def encodeDoc (bbp : ByteBPEProcessor) (bos_id eos_id : Nat) (doc : Doc) :
    Ragged :=
  let r := encodeTokens bbp none doc
  { data := bos_id :: (r.1 ++ [eos_id])
    lengths := 1 :: (r.2 ++ [1]) }

/-- Model of `byte_bpe_encoder_forward`: looks up the BOS, EOS and UNK
pieces in that order, raising `ValueError` when any is missing from
the vocabulary — before any document is encoded — and otherwise
encodes every document. -/
def byte_bpe_encoder_forward (model : BBPEModel) (X : List Doc) :
    Except String (List Ragged) :=
  match model.byte_bpe_processor.piece_id model.bos_piece with
  | none => .error "Vocabulary does not have BOS piece"
  | some bos_id =>
    match model.byte_bpe_processor.piece_id model.eos_piece with
    | none => .error "Vocabulary does not have EOS piece"
    | some eos_id =>
      match model.byte_bpe_processor.piece_id model.unk_piece with
      | none => .error "Vocabulary does not have UNK piece"
      | some _ =>
        .ok (X.map (encodeDoc model.byte_bpe_processor bos_id eos_id))

/-- The per-token input strings, stated directly: the first token
contributes its text, every later token the previous token's trailing
whitespace prepended to its text. `tokenRest prev ts` lists the inputs
of `ts` when `prev` precedes them. -/
def tokenRest (prev : Token) : List Token → List String
  | [] => []
  | t :: rest => (prev.whitespace_ ++ t.text) :: tokenRest t rest

/-- Top-level per-token input strings of a document (see `tokenRest`). -/
def tokenInputs : Doc → List String
  | [] => []
  | t :: rest => t.text :: tokenRest t rest

end CuratedTransformers.BBPE

namespace CuratedTransformers.Decoder

open CuratedTransformers

/-- Modelled from the spec: `KeyValueCache`, the per-layer key/value
projections of previously processed positions (the decoder stack and
`curated_transformers/layers/attention.py` are not among the sampled
sources). It grows along the sequence dimension across calls. -/
structure KeyValueCache (R : Type) where
  key : List (Vec R)
  value : List (Vec R)
deriving DecidableEq, Repr

/-- Parameters of one decoder layer. `rot` abstracts the sinusoidal
rotary rotation at a given absolute position (its angles are
irrational); `normF` abstracts the row-wise softmax with its
`1 / sqrt(head_width)` scaling; `attnNorm` the pre-attention layer
norm, and `ffn` the feed-forward block with its own pre-norm, both
position-wise. -/
structure DecLayerParams (R : Type) where
  wq : Mat R
  wk : Mat R
  wv : Mat R
  wo : Mat R
  rot : Nat → Vec R → Vec R
  normF : List R → List R
  attnNorm : Vec R → Vec R
  ffn : Vec R → Vec R

/-- Masked attention pooling: masked key positions are set to `-∞`
before the softmax, hence get weight zero — modelled by dropping them
and normalising the remaining scores, then weighting the surviving
values. -/
def maskedWSum {R : Type} [CommRing R] (normF : List R → List R)
    (valid : List Bool) (scores : List R) (vs : List (Vec R)) : Vec R :=
  let kept := ((scores.zip vs).zip valid).filterMap
    fun pr => if pr.2 then some pr.1 else none
  wsum (normF (kept.map Prod.fst)) (kept.map Prod.snd)

/-- Projection followed by the position-dependent rotary rotation:
position `pos` is the absolute position, i.e. already offset by the
cache length (the spec's critical offset requirement). -/
def rotProj {R : Type} [CommRing R] (rot : Nat → Vec R → Vec R) (w : Mat R) :
    Nat → List (Vec R) → List (Vec R)
  | _, [] => []
  | pos, x :: rest => rot pos (matVec w x) :: rotProj rot w (pos + 1) rest

/-- Causal attention outputs: the query at absolute position `pos`
attends over key positions `0 .. pos` (the lower-triangular causal
mask over the `cache_length + new_length` key positions), combined
with the validity mask, then projected by the output matrix. -/
def attnOuts {R : Type} [CommRing R] (p : DecLayerParams R)
    (validAll : List Bool) (ks vs : List (Vec R)) :
    Nat → List (Vec R) → List (Vec R)
  | _, [] => []
  | pos, q :: rest =>
      matVec p.wo (maskedWSum p.normF (validAll.take (pos + 1))
          ((ks.take (pos + 1)).map (dot q)) (vs.take (pos + 1)))
        :: attnOuts p validAll ks vs (pos + 1) rest

/-- Modelled from the spec: one decoder layer step with caching.
New key/value projections are concatenated onto the cached ones along
the sequence axis before scoring and before being returned; query and
key projections are rotated at absolute positions offset by the cache
length; cached key positions are considered valid, new ones follow the
supplied mask; attention output is added residually, then the
position-wise feed-forward block is added residually. -/
def decLayerForward {R : Type} [CommRing R] (p : DecLayerParams R)
    (mask : List Bool) (cache : KeyValueCache R) (xs : List (Vec R)) :
    List (Vec R) × KeyValueCache R :=
  let n := cache.key.length
  let nx := xs.map p.attnNorm
  let qs := rotProj p.rot p.wq n nx
  let newK := rotProj p.rot p.wk n nx
  let newV := nx.map (matVec p.wv)
  let ks := cache.key ++ newK
  let vs := cache.value ++ newV
  let validAll := List.replicate n true ++ mask
  let attn := attnOuts p validAll ks vs n qs
  let hs := (xs.zip attn).map fun pr => vecAdd pr.1 pr.2
  (hs.map fun h => vecAdd h (p.ffn h), { key := ks, value := vs })

/-- Modelled from the spec: the decoder stack — embeddings, then the
layers in order, each consuming the previous layer's output together
with its own cache entry, accumulating per-layer hidden states and
per-layer cache entries keyed by layer position. -/
def runLayers {R : Type} [CommRing R] (mask : List Bool) :
    List (DecLayerParams R × KeyValueCache R) → List (Vec R) →
    List (List (Vec R)) × List (KeyValueCache R)
  | [], _ => ([], [])
  | pc :: rest, h =>
      let r := decLayerForward pc.1 mask pc.2 h
      let rr := runLayers mask rest r.1
      (r.1 :: rr.1, r.2 :: rr.2)

/-- Modelled from the spec: the decoder module — padding id, embedding
table and layer stack. -/
structure DecoderModel (R : Type) where
  padding_id : Int
  embed : Int → Vec R
  layers : List (DecLayerParams R)

/-- The decoder's result object: per-layer hidden states plus the
updated per-layer cache. -/
structure DecoderOutput (R : Type) where
  layer_hidden_states : List (List (Vec R))
  cache : List (KeyValueCache R)
deriving DecidableEq

/-- The empty cache used when no prior cache is supplied: one empty
entry per layer. -/
def emptyCache {R : Type} (nLayers : Nat) : List (KeyValueCache R) :=
  List.replicate nLayers { key := [], value := [] }

/-- Modelled from the spec: the decoder forward pass. When no mask is
supplied it is derived from the padding id (true where the token id
differs); when no cache is supplied the empty cache is used. Token
ids are embedded position-wise and the layer stack is run. -/
def decoderForward {R : Type} [CommRing R] (m : DecoderModel R)
    (ids : List Int) (cache : Option (List (KeyValueCache R))) :
    DecoderOutput R :=
  let mask := ids.map fun t => decide (t ≠ m.padding_id)
  let caches := cache.getD (emptyCache m.layers.length)
  let r := runLayers mask (m.layers.zip caches) (ids.map m.embed)
  { layer_hidden_states := r.1, cache := r.2 }

end CuratedTransformers.Decoder

/-!
## Theorems

Each claim of the specification is settled by one theorem below,
preceded by shared helper lemmas.
-/

open CuratedTransformers

/-- C2: for every ALBERT encoder configuration with hidden layer count
`L` and hidden group count `G > 0` such that `L % G ≠ 0`, construction
raises a `ValueError` (the same error whatever group modules would
have been built, i.e. before any modules are built); when `L % G = 0`,
construction succeeds with exactly `G` layer groups. -/
theorem claim2_albert_group_divisibility {G : Type}
    (config : Albert.AlbertConfig) (mkGroup : Nat → G)
    (hG : 0 < config.layer.num_hidden_groups) :
    (config.layer.num_hidden_layers % config.layer.num_hidden_groups ≠ 0 →
      Albert.AlbertEncoder.Init config mkGroup =
        .error (Albert.albertDivisibilityError
          config.layer.num_hidden_layers config.layer.num_hidden_groups)) ∧
    (config.layer.num_hidden_layers % config.layer.num_hidden_groups = 0 →
      ∃ m : Albert.AlbertEncoder G,
        Albert.AlbertEncoder.Init config mkGroup = .ok m ∧
        m.groups.length = config.layer.num_hidden_groups) := by
  constructor
  · intro h
    simp [Albert.AlbertEncoder.Init, h]
  · intro h
    refine ⟨{ padding_id := config.padding_id
              max_seq_len := config.model_max_length
              num_hidden_layers := config.layer.num_hidden_layers
              groups := (List.range config.layer.num_hidden_groups).map
                mkGroup }, ?_, ?_⟩
    · simp [Albert.AlbertEncoder.Init, h]
    · simp

/-- Witness for C2 at a concrete configuration: 5 layers and 2 groups
fail construction. -/
theorem claim2_witness :
    Albert.AlbertEncoder.Init (G := Nat)
        { padding_id := 0, model_max_length := 512,
          layer := { num_hidden_layers := 5, num_hidden_groups := 2 } }
        (fun k => k) =
      .error (Albert.albertDivisibilityError 5 2) :=
  (claim2_albert_group_divisibility _ _ (by decide)).1 (by decide)

/-- C4: a Llama decoder configuration whose attention section has no
rotary-embedding parameters raises a `ValueError` at construction time
(the constructor returns the error, so no constructed decoder exists
on which a forward pass could run); with rotary parameters present,
construction succeeds. -/
theorem claim4_llama_rotary_required (config : Llama.LlamaConfig) :
    (config.layer.attention.rotary_embeddings = none →
      Llama.LlamaDecoder.Init config = .error Llama.llamaRotaryError) ∧
    (∀ r, config.layer.attention.rotary_embeddings = some r →
      ∃ d, Llama.LlamaDecoder.Init config = .ok d) := by
  constructor
  · intro h
    simp [Llama.LlamaDecoder.Init, h]
  · intro r h
    unfold Llama.LlamaDecoder.Init
    rw [h]
    exact ⟨_, rfl⟩

/-- Witness for C4 at a concrete configuration with absent rotary
parameters. -/
theorem claim4_witness :
    Llama.LlamaDecoder.Init
        { embedding := { embedding_width := 32, n_pieces := 100,
                         dropout_prob := 0 },
          layer := { attention := { n_query_heads := 4, n_key_value_heads := 2,
                                    rotary_embeddings := none,
                                    use_bias := false,
                                    use_parallel_attention := false,
                                    dropout_prob := 0 },
                     feedforward := { hidden_width := 64,
                                      intermediate_width := 128,
                                      use_bias := false, use_gate := true },
                     n_hidden_layers := 2, layer_norm_eps := 0,
                     dropout_prob := 0 } } =
      .error Llama.llamaRotaryError :=
  (claim4_llama_rotary_required _).1 rfl

/-- C5: when the caller supplies no attention mask, the forward pass
behaves exactly as if the derived mask had been supplied, and that
derived mask is true at position `(i, j)` precisely when the token id
there differs from the configured padding id. -/
theorem claim5_default_attention_mask {G H : Type}
    (m : Albert.AlbertEncoder G) (embed : List (List Int) → H)
    (app : G → Albert.BoolMask → H → H) (input_ids : List (List Int)) :
    m.forward embed app input_ids none =
      m.forward embed app input_ids
        (some (m.create_attention_mask input_ids)) ∧
    ∀ i j (row : List Int) (t : Int),
      input_ids.get? i = some row → row.get? j = some t →
      ((m.usedMask input_ids none).get? i).bind (fun r => r.get? j) =
        some (decide (t ≠ m.padding_id)) := by
  constructor
  · rfl
  · intro i j row t hi hj
    rw [List.get?_eq_getElem?] at hi hj
    simp [Albert.AlbertEncoder.usedMask,
      Albert.AlbertEncoder.create_attention_mask, Albert.tensorNe,
      List.get?_eq_getElem?, hi, hj]

/-- Witness for C5 at a concrete batch: padding id 0, batch
`[[1, 0, 2]]`; the derived mask entry at `(0, 1)` is `false`. -/
theorem claim5_witness :
    ((Albert.AlbertEncoder.usedMask (G := Unit)
        { padding_id := 0, max_seq_len := 512, num_hidden_layers := 1,
          groups := [()] } [[1, 0, 2]] none).get? 0).bind
      (fun r => r.get? 1) = some (decide ((0 : Int) ≠ 0)) :=
  (claim5_default_attention_mask
    { padding_id := 0, max_seq_len := 512, num_hidden_layers := 1,
      groups := [()] }
    (fun _ => ()) (fun _ _ _ => ()) [[1, 0, 2]]).2 0 1 [1, 0, 2] 0 rfl rfl

/-- C8: `byte_bpe_encoder_forward` raises a `ValueError` whenever the
BOS, EOS or UNK piece has no id — and the error is the same whatever
the document list, so no document is encoded and no partial output is
produced; when all three pieces are present, the call returns `ok` for
every input (it never raises on that account). -/
theorem claim8_bbpe_missing_pieces (model : BBPE.BBPEModel)
    (X : List BBPE.Doc) :
    ((model.byte_bpe_processor.piece_id model.bos_piece = none ∨
      model.byte_bpe_processor.piece_id model.eos_piece = none ∨
      model.byte_bpe_processor.piece_id model.unk_piece = none) →
      ∃ e, ∀ X' : List BBPE.Doc,
        BBPE.byte_bpe_encoder_forward model X' = .error e) ∧
    (∀ b e u, model.byte_bpe_processor.piece_id model.bos_piece = some b →
      model.byte_bpe_processor.piece_id model.eos_piece = some e →
      model.byte_bpe_processor.piece_id model.unk_piece = some u →
      BBPE.byte_bpe_encoder_forward model X =
        .ok (X.map (BBPE.encodeDoc model.byte_bpe_processor b e))) := by
  constructor
  · intro h
    rcases hb : model.byte_bpe_processor.piece_id model.bos_piece with _ | b
    · exact ⟨"Vocabulary does not have BOS piece", fun X' => by
        simp [BBPE.byte_bpe_encoder_forward, hb]⟩
    · rcases he : model.byte_bpe_processor.piece_id model.eos_piece with _ | e
      · exact ⟨"Vocabulary does not have EOS piece", fun X' => by
          simp [BBPE.byte_bpe_encoder_forward, hb, he]⟩
      · rcases hu : model.byte_bpe_processor.piece_id model.unk_piece
          with _ | u
        · exact ⟨"Vocabulary does not have UNK piece", fun X' => by
            simp [BBPE.byte_bpe_encoder_forward, hb, he, hu]⟩
        · exact absurd h (by simp [hb, he, hu])
  · intro b e u hb he hu
    simp [BBPE.byte_bpe_encoder_forward, hb, he, hu]

/-- Witness for C8: a vocabulary with no pieces at all fails, and a
vocabulary with all pieces encodes the empty batch. -/
theorem claim8_witness :
    (∃ e, ∀ X' : List BBPE.Doc,
      BBPE.byte_bpe_encoder_forward
        { byte_bpe_processor := ⟨fun _ => none, fun _ => []⟩,
          unk_piece := "<unk>", bos_piece := "<s>", eos_piece := "</s>" }
        X' = .error e) ∧
    BBPE.byte_bpe_encoder_forward
        { byte_bpe_processor := ⟨fun s => some s.length, fun _ => []⟩,
          unk_piece := "<unk>", bos_piece := "<s>", eos_piece := "</s>" }
        [] = .ok [] :=
  ⟨(claim8_bbpe_missing_pieces _ []).1 (Or.inl rfl),
   (claim8_bbpe_missing_pieces _ []).2 3 4 5 rfl rfl rfl⟩

/-- Helper: the token loop after the first token computes exactly the
inputs listed by `tokenRest` (previous token's trailing whitespace
prepended), encoded and concatenated, with the matching lengths. -/
theorem encodeTokens_some_eq (bbp : BBPE.ByteBPEProcessor) :
    ∀ (ts : List BBPE.Token) (prev : BBPE.Token),
      BBPE.encodeTokens bbp (some prev) ts =
        (((BBPE.tokenRest prev ts).map bbp.encode_as_ids).flatten,
         (BBPE.tokenRest prev ts).map fun s => (bbp.encode_as_ids s).length) := by
  intro ts
  induction ts with
  | nil => intro prev; rfl
  | cons t rest ih =>
      intro prev
      simp [BBPE.encodeTokens, BBPE.tokenRest, ih t]

/-- C10: in `byte_bpe_encoder_forward`, the first token of a document
is encoded from its text alone and every later token from the string
formed by prepending the preceding token's trailing whitespace to the
token's text: the loop's output is the concatenation of
`encode_as_ids` over exactly those strings (`tokenInputs`), with one
length entry per token. -/
theorem claim10_bbpe_whitespace_prepend (bbp : BBPE.ByteBPEProcessor)
    (doc : BBPE.Doc) :
    BBPE.encodeTokens bbp none doc =
      (((BBPE.tokenInputs doc).map bbp.encode_as_ids).flatten,
       (BBPE.tokenInputs doc).map fun s => (bbp.encode_as_ids s).length) := by
  cases doc with
  | nil => rfl
  | cons t rest =>
      simp [BBPE.encodeTokens, BBPE.tokenInputs, encodeTokens_some_eq bbp rest t]

/-- Helper: one length entry is produced per token. -/
theorem encodeTokens_lengths_length (bbp : BBPE.ByteBPEProcessor) :
    ∀ (ts : List BBPE.Token) (prev : Option BBPE.Token),
      (BBPE.encodeTokens bbp prev ts).2.length = ts.length := by
  intro ts
  induction ts with
  | nil => intro prev; rfl
  | cons t rest ih => intro prev; simp [BBPE.encodeTokens, ih (some t)]

/-- Helper: the lengths produced by the token loop sum to the number
of piece ids produced. -/
theorem encodeTokens_lengths_sum (bbp : BBPE.ByteBPEProcessor) :
    ∀ (ts : List BBPE.Token) (prev : Option BBPE.Token),
      (BBPE.encodeTokens bbp prev ts).2.sum =
        (BBPE.encodeTokens bbp prev ts).1.length := by
  intro ts
  induction ts with
  | nil => intro prev; rfl
  | cons t rest ih => intro prev; simp [BBPE.encodeTokens, ih (some t)]

/-- C9: every `Ragged` returned by `byte_bpe_encoder_forward` begins
with the BOS id and ends with the EOS id, has exactly
`(number of tokens) + 2` length entries whose first and last entries
equal 1, and its lengths sum to the total number of piece ids. -/
theorem claim9_bbpe_ragged_invariants (model : BBPE.BBPEModel)
    (X : List BBPE.Doc) (rs : List BBPE.Ragged) (bos_id eos_id : Nat)
    (hb : model.byte_bpe_processor.piece_id model.bos_piece = some bos_id)
    (he : model.byte_bpe_processor.piece_id model.eos_piece = some eos_id)
    (hok : BBPE.byte_bpe_encoder_forward model X = .ok rs) :
    rs.length = X.length ∧
    ∀ i doc r, X.get? i = some doc → rs.get? i = some r →
      r.data.head? = some bos_id ∧
      r.data.getLast? = some eos_id ∧
      r.lengths.length = doc.length + 2 ∧
      r.lengths.head? = some 1 ∧
      r.lengths.getLast? = some 1 ∧
      r.lengths.sum = r.data.length := by
  rcases hu : model.byte_bpe_processor.piece_id model.unk_piece with _ | u
  · simp [BBPE.byte_bpe_encoder_forward, hb, he, hu] at hok
  · simp [BBPE.byte_bpe_encoder_forward, hb, he, hu] at hok
    subst hok
    refine ⟨by simp, ?_⟩
    intro i doc r hX hr
    rw [List.get?_eq_getElem?] at hX hr
    rw [List.getElem?_map, hX] at hr
    have hr' : BBPE.encodeDoc model.byte_bpe_processor bos_id eos_id doc = r :=
      Option.some_injective _ hr
    subst hr'
    refine ⟨rfl, ?_, ?_, rfl, ?_, ?_⟩
    · show (bos_id :: ((BBPE.encodeTokens model.byte_bpe_processor none doc).1
        ++ [eos_id])).getLast? = some eos_id
      rw [← List.cons_append, List.getLast?_concat]
    · show (1 :: ((BBPE.encodeTokens model.byte_bpe_processor none doc).2
        ++ [1])).length = doc.length + 2
      simp [encodeTokens_lengths_length]
    · show (1 :: ((BBPE.encodeTokens model.byte_bpe_processor none doc).2
        ++ [1])).getLast? = some 1
      rw [← List.cons_append, List.getLast?_concat]
    · show (1 :: ((BBPE.encodeTokens model.byte_bpe_processor none doc).2
        ++ [1])).sum = (bos_id :: ((BBPE.encodeTokens
          model.byte_bpe_processor none doc).1 ++ [eos_id])).length
      simp [encodeTokens_lengths_sum]
      omega

/-- Witness for C9 on a concrete vocabulary and a two-token document. -/
theorem claim9_witness :
    ([BBPE.encodeDoc ⟨fun s => some s.length, fun s => [s.length, 0]⟩ 3 4
        [⟨"ab", " "⟩, ⟨"c", ""⟩]] : List BBPE.Ragged).length =
      ([[⟨"ab", " "⟩, ⟨"c", ""⟩]] : List BBPE.Doc).length ∧
    ∀ i doc r,
      ([[⟨"ab", " "⟩, ⟨"c", ""⟩]] : List BBPE.Doc).get? i = some doc →
      ([BBPE.encodeDoc ⟨fun s => some s.length, fun s => [s.length, 0]⟩ 3 4
        [⟨"ab", " "⟩, ⟨"c", ""⟩]] : List BBPE.Ragged).get? i = some r →
      r.data.head? = some 3 ∧
      r.data.getLast? = some 4 ∧
      r.lengths.length = doc.length + 2 ∧
      r.lengths.head? = some 1 ∧
      r.lengths.getLast? = some 1 ∧
      r.lengths.sum = r.data.length :=
  claim9_bbpe_ragged_invariants
    { byte_bpe_processor := ⟨fun s => some s.length, fun s => [s.length, 0]⟩,
      unk_piece := "<unk>", bos_piece := "<s>", eos_piece := "</s>" }
    [[⟨"ab", " "⟩, ⟨"c", ""⟩]] _ 3 4 rfl rfl rfl

/-- Helper: the chain collects exactly `n` outputs. -/
theorem chainFrom_length {H : Type} (f : Nat → H → H) :
    ∀ (n i : Nat) (h : H), (Albert.chainFrom f i n h).length = n := by
  intro n
  induction n with
  | zero => intro i h; rfl
  | succ n ih => intro i h; simpa [Albert.chainFrom] using ih (i + 1) (f i h)

/-- Helper: the inner loop of the ALBERT forward pass is the constant
chain of one group, and threads out the iterate of that group. -/
theorem applyGroupN_eq {H : Type} (f : H → H) :
    ∀ (n i : Nat) (h : H),
      Albert.applyGroupN f n h =
        (f^[n] h, Albert.chainFrom (fun _ => f) i n h) := by
  intro n
  induction n with
  | zero => intro i h; rfl
  | succ n ih =>
      intro i h
      simp only [Albert.applyGroupN, Albert.chainFrom, ih (i + 1) (f h),
        Function.iterate_succ_apply]

/-- Helper: the chain only depends on the step function at the indices
it traverses. -/
theorem chainFrom_congr_on {H : Type} (f g : Nat → H → H) :
    ∀ (n i : Nat) (h : H),
      (∀ j, i ≤ j → j < i + n → ∀ x, f j x = g j x) →
      Albert.chainFrom f i n h = Albert.chainFrom g i n h := by
  intro n
  induction n with
  | zero => intro i h _; rfl
  | succ n ih =>
      intro i h hfg
      have h0 : f i h = g i h := hfg i le_rfl (by omega) h
      simp only [Albert.chainFrom, h0]
      exact congrArg _ (ih (i + 1) (g i h)
        (fun j hj1 hj2 x => hfg j (by omega) (by omega) x))

/-- Helper: the threaded value only depends on the step function at
the indices traversed. -/
theorem chainLast_congr_on {H : Type} (f g : Nat → H → H) :
    ∀ (n i : Nat) (h : H),
      (∀ j, i ≤ j → j < i + n → ∀ x, f j x = g j x) →
      Albert.chainLast f i n h = Albert.chainLast g i n h := by
  intro n
  induction n with
  | zero => intro i h _; rfl
  | succ n ih =>
      intro i h hfg
      have h0 : f i h = g i h := hfg i le_rfl (by omega) h
      simp only [Albert.chainLast, h0]
      exact ih (i + 1) (g i h) (fun j hj1 hj2 x => hfg j (by omega) (by omega) x)

/-- Helper: threading a constant step function is iteration. -/
theorem chainLast_const {H : Type} (f : H → H) :
    ∀ (n i : Nat) (h : H),
      Albert.chainLast (fun _ => f) i n h = f^[n] h := by
  intro n
  induction n with
  | zero => intro i h; rfl
  | succ n ih =>
      intro i h
      simp only [Albert.chainLast, ih (i + 1) (f h),
        Function.iterate_succ_apply]

/-- Helper: splitting a chain of `a + b` steps at `a`. -/
theorem chainFrom_add {H : Type} (f : Nat → H → H) :
    ∀ (a b i : Nat) (h : H),
      Albert.chainFrom f i (a + b) h =
        Albert.chainFrom f i a h ++
          Albert.chainFrom f (i + a) b (Albert.chainLast f i a h) := by
  intro a
  induction a with
  | zero => intro b i h; simp [Albert.chainFrom, Albert.chainLast]
  | succ a ih =>
      intro b i h
      have hsa : a + 1 + b = (a + b) + 1 := by omega
      rw [hsa]
      simp only [Albert.chainFrom, Albert.chainLast, List.cons_append,
        ih b (i + 1) (f i h)]
      have : i + (a + 1) = i + 1 + a := by omega
      rw [this]

/-- Helper: reindexing a chain by a constant offset. -/
theorem chainFrom_shift {H : Type} (f : Nat → H → H) (c : Nat) :
    ∀ (n i : Nat) (h : H),
      Albert.chainFrom f (c + i) n h =
        Albert.chainFrom (fun j => f (c + j)) i n h := by
  intro n
  induction n with
  | zero => intro i h; rfl
  | succ n ih =>
      intro i h
      simp only [Albert.chainFrom]
      have : c + i + 1 = c + (i + 1) := by omega
      rw [this, ih (i + 1) (f (c + i) h)]

/-- Helper: with zero layers per group the forward loop produces no
outputs. -/
theorem runGroups_zero {G H : Type} (app : G → H → H) :
    ∀ (gs : List G) (h : H), Albert.runGroups app 0 gs h = [] := by
  intro gs
  induction gs with
  | nil => intro h; rfl
  | cons g rest ih => intro h; simpa [Albert.runGroups, Albert.applyGroupN] using ih h

/-- Helper: element access into a mapped range. -/
theorem getD_range_map {α : Type} (f : Nat → α) (n k : Nat) (d : α)
    (hk : k < n) : ((List.range n).map f).getD k d = f k := by
  rw [List.getD_eq_getElem?_getD]
  simp [List.getElem?_map, List.getElem?_range hk]

/-- Helper: the ALBERT double loop (groups outer, layer repetitions
inner) equals the flat chain where layer position `i` applies group
`i / lpg`. -/
theorem runGroups_eq_chainFrom {G H : Type} [Inhabited G] (app : G → H → H)
    (lpg : Nat) (hlpg : 0 < lpg) :
    ∀ (gs : List G) (h : H),
      Albert.runGroups app lpg gs h =
        Albert.chainFrom (fun i => app (gs.getD (i / lpg) default)) 0
          (gs.length * lpg) h := by
  intro gs
  induction gs with
  | nil =>
      intro h
      rw [List.length_nil, Nat.zero_mul]
      rfl
  | cons g rest ih =>
      intro h
      have hlen : (g :: rest).length * lpg = lpg + rest.length * lpg := by
        simp [List.length_cons]; ring
      rw [Albert.runGroups, applyGroupN_eq (app g) lpg 0 h, hlen,
        chainFrom_add]
      congr 1
      · exact (chainFrom_congr_on _ _ lpg 0 h (by
          intro j hj1 hj2 x
          have : j / lpg = 0 := Nat.div_eq_of_lt (by omega)
          simp [this])).symm
      · rw [ih ((app g)^[lpg] h)]
        have hlast : Albert.chainLast
            (fun i => app ((g :: rest).getD (i / lpg) default)) 0 lpg h =
            (app g)^[lpg] h := by
          rw [chainLast_congr_on
            (fun i => app ((g :: rest).getD (i / lpg) default))
            (fun _ => app g) lpg 0 h (by
              intro j hj1 hj2 x
              have : j / lpg = 0 := Nat.div_eq_of_lt (by omega)
              simp [this]),
            chainLast_const]
        rw [hlast]
        have hz : (0 : Nat) + lpg = lpg + 0 := by omega
        rw [hz, chainFrom_shift]
        exact (chainFrom_congr_on _ _ (rest.length * lpg) 0 _ (by
          intro j hj1 hj2 x
          have : (lpg + j) / lpg = j / lpg + 1 := by
            rw [Nat.add_comm lpg j, Nat.add_div_right _ hlpg]
          simp [this])).symm

/-- Helper: a successful `AlbertEncoder.Init` implies the divisibility
condition held and fixes the constructed encoder. -/
theorem albertInit_ok_elim {G : Type} (config : Albert.AlbertConfig)
    (mkGroup : Nat → G) (m : Albert.AlbertEncoder G)
    (hok : Albert.AlbertEncoder.Init config mkGroup = .ok m) :
    config.layer.num_hidden_layers % config.layer.num_hidden_groups = 0 ∧
    m = { padding_id := config.padding_id
          max_seq_len := config.model_max_length
          num_hidden_layers := config.layer.num_hidden_layers
          groups := (List.range config.layer.num_hidden_groups).map
            mkGroup } := by
  by_cases hc :
      config.layer.num_hidden_layers % config.layer.num_hidden_groups = 0
  · refine ⟨hc, ?_⟩
    simp [Albert.AlbertEncoder.Init, hc] at hok
    exact hok.symm
  · simp [Albert.AlbertEncoder.Init, hc] at hok

/-- Helper: the hidden states returned by the ALBERT forward pass are
the group double loop run on the embeddings. -/
theorem albert_forward_hidden_states {G H : Type} (m : Albert.AlbertEncoder G)
    (embed : List (List Int) → H) (app : G → Albert.BoolMask → H → H)
    (input_ids : List (List Int)) (attention_mask : Option Albert.BoolMask) :
    (m.forward embed app input_ids attention_mask).layer_hidden_states =
      Albert.runGroups (fun g => app g (m.usedMask input_ids attention_mask))
        (m.num_hidden_layers / m.groups.length) m.groups (embed input_ids) :=
  rfl

/-- C3: for every successfully constructed ALBERT encoder with `L`
hidden layers and `G` groups, the forward pass returns exactly `L`
per-layer hidden states and equals the layer chain in which position
`i` applies the stored group module `groups[i / (L / G)]` (group 0 at
the earliest positions) to the previous layer's output; moreover the
module applied at position `i` is exactly the one module constructed
for group `i / (L / G)`, so positions sharing a group apply the
identical parameters. -/
theorem claim3_albert_weight_sharing {G H : Type} [Inhabited G]
    (config : Albert.AlbertConfig) (mkGroup : Nat → G)
    (m : Albert.AlbertEncoder G) (embed : List (List Int) → H)
    (app : G → Albert.BoolMask → H → H) (input_ids : List (List Int))
    (attention_mask : Option Albert.BoolMask)
    (hok : Albert.AlbertEncoder.Init config mkGroup = .ok m) :
    ((m.forward embed app input_ids attention_mask).layer_hidden_states).length
        = config.layer.num_hidden_layers ∧
    (m.forward embed app input_ids attention_mask).layer_hidden_states =
      Albert.chainFrom
        (fun i => app
          (m.groups.getD (i / (config.layer.num_hidden_layers /
            config.layer.num_hidden_groups)) default)
          (m.usedMask input_ids attention_mask))
        0 config.layer.num_hidden_layers (embed input_ids) ∧
    (∀ i, i < config.layer.num_hidden_layers →
      m.groups.getD (i / (config.layer.num_hidden_layers /
          config.layer.num_hidden_groups)) default =
        mkGroup (i / (config.layer.num_hidden_layers /
          config.layer.num_hidden_groups))) := by
  obtain ⟨hdvd, hm⟩ := albertInit_ok_elim config mkGroup m hok
  subst hm
  rw [albert_forward_hidden_states]
  have hglen : ((List.range config.layer.num_hidden_groups).map
      mkGroup).length = config.layer.num_hidden_groups := by simp
  dsimp only
  rw [hglen]
  by_cases hL0 : config.layer.num_hidden_layers = 0
  · rw [hL0, Nat.zero_div, runGroups_zero]
    exact ⟨rfl, rfl, fun i hi => absurd hi (by omega)⟩
  · have hGpos : 0 < config.layer.num_hidden_groups := by
      rcases Nat.eq_zero_or_pos config.layer.num_hidden_groups with h0 | h
      · rw [h0, Nat.mod_zero] at hdvd
        exact absurd hdvd hL0
      · exact h
    have hdvd' := Nat.dvd_of_mod_eq_zero hdvd
    have hlpg : 0 < config.layer.num_hidden_layers /
        config.layer.num_hidden_groups :=
      Nat.div_pos (Nat.le_of_dvd (Nat.pos_of_ne_zero hL0) hdvd') hGpos
    rw [runGroups_eq_chainFrom _ _ hlpg, hglen,
      Nat.mul_div_cancel' hdvd']
    refine ⟨chainFrom_length _ _ _ _, rfl, ?_⟩
    intro i hi
    have hidx : i / (config.layer.num_hidden_layers /
        config.layer.num_hidden_groups) < config.layer.num_hidden_groups := by
      rw [Nat.div_lt_iff_lt_mul hlpg]
      calc i < config.layer.num_hidden_layers := hi
        _ = config.layer.num_hidden_groups *
            (config.layer.num_hidden_layers /
              config.layer.num_hidden_groups) :=
          (Nat.mul_div_cancel' hdvd').symm
    exact getD_range_map mkGroup _ _ default hidx

/-- Witness for C3: 4 layers in 2 groups; group 0 is applied at layer
positions 0 and 1, group 1 at positions 2 and 3. -/
theorem claim3_witness :
    ((Albert.AlbertEncoder.forward (G := Nat) (H := Nat)
        { padding_id := 0, max_seq_len := 8, num_hidden_layers := 4,
          groups := [0, 1] }
        (fun _ => 100) (fun g _ h => h * 2 + g) [[1, 2]] none
        ).layer_hidden_states).length = 4 ∧
    (Albert.AlbertEncoder.forward (G := Nat) (H := Nat)
        { padding_id := 0, max_seq_len := 8, num_hidden_layers := 4,
          groups := [0, 1] }
        (fun _ => 100) (fun g _ h => h * 2 + g) [[1, 2]] none
        ).layer_hidden_states =
      Albert.chainFrom
        (fun i => (fun (g : Nat) (_ : Albert.BoolMask) (h : Nat) =>
            h * 2 + g)
          (List.getD [0, 1] (i / (4 / 2)) default)
          (Albert.AlbertEncoder.usedMask
            { padding_id := 0, max_seq_len := 8, num_hidden_layers := 4,
              groups := [0, 1] } [[1, 2]] none))
        0 4 ((fun _ => 100) [[1, 2]]) ∧
    (∀ i, i < 4 →
      List.getD [0, 1] (i / (4 / 2)) default =
        (fun (k : Nat) => k) (i / (4 / 2))) :=
  claim3_albert_weight_sharing
    { padding_id := 0, model_max_length := 8,
      layer := { num_hidden_layers := 4, num_hidden_groups := 2 } }
    (fun k => k)
    { padding_id := 0, max_seq_len := 8, num_hidden_layers := 4,
      groups := [0, 1] }
    (fun _ => 100) (fun g _ h => h * 2 + g) [[1, 2]] none rfl

/-- Helper: length of the broadcast key/value head list. -/
theorem length_flatten_replicate {α : Type} (m : Nat) :
    ∀ l : List α, ((l.map (List.replicate m)).flatten).length = l.length * m := by
  intro l
  induction l with
  | nil => simp
  | cons x xs ih => simp [ih]; ring

/-- Helper: the `h`-th broadcast key/value head is source head `h / m`. -/
theorem flatten_replicate_get {α : Type} (m : Nat) :
    ∀ (l : List α) (h : Nat), h < l.length * m →
      ((l.map (List.replicate m)).flatten).get? h = l.get? (h / m) := by
  intro l
  induction l with
  | nil => intro h hh; simp at hh
  | cons x xs ih =>
      intro h hh
      rcases Nat.eq_zero_or_pos m with hm | hm
      · rw [hm] at hh
        simp at hh
      · simp only [List.map_cons, List.flatten_cons]
        by_cases hlt : h < m
        · rw [List.get?_append (by simpa using hlt), Nat.div_eq_of_lt hlt]
          simp [List.get?_eq_getElem?, List.getElem?_replicate, hlt]
        · have hge := Nat.le_of_not_lt hlt
          rw [List.get?_append_right (by simpa using hge)]
          have harg : h - (List.replicate m x).length = h - m := by simp
          rw [harg, ih (h - m) (by
            have : (x :: xs).length * m = xs.length * m + m := by
              simp [List.length_cons]; ring
            omega)]
          rw [Nat.div_eq_sub_div hm hge]
          rfl

/-- Helper: under the weight-sharing hypothesis, broadcasting the
grouped key/value heads yields exactly the ungrouped head list. -/
theorem broadcastKV_eq_shared {R : Type}
    (wqs : List (Mat R)) (kvsG kvsU : List (Attention.KVWeights R))
    (hK : 0 < kvsG.length) (hdvd : kvsG.length ∣ wqs.length)
    (hlen : kvsU.length = wqs.length)
    (hshare : ∀ h, h < wqs.length →
      kvsU.get? h = kvsG.get? (h / (wqs.length / kvsG.length))) :
    Attention.broadcastKV (wqs.length / kvsG.length) kvsG = kvsU := by
  have hQ : kvsG.length * (wqs.length / kvsG.length) = wqs.length :=
    Nat.mul_div_cancel' hdvd
  apply List.ext_get?
  intro n
  by_cases hn : n < wqs.length
  · rw [Attention.broadcastKV,
      flatten_replicate_get _ kvsG n (by rw [hQ]; exact hn),
      (hshare n hn).symm]
  · have h1 : ((kvsG.map (List.replicate
        (wqs.length / kvsG.length))).flatten).length ≤ n := by
      rw [length_flatten_replicate, hQ]
      omega
    rw [Attention.broadcastKV, List.get?_eq_none.mpr h1,
      List.get?_eq_none.mpr (by omega)]

/-- C6: for every key/value head count `K` dividing the query head
count `Q`, grouped attention that broadcasts the `K` key/value heads
up to `Q` heads before scoring produces output identical to ungrouped
attention with `Q` heads in which each group of `Q / K` consecutive
query heads shares the identical key/value projection weights. -/
theorem claim6_kv_broadcast_equivalence {R : Type} [CommRing R]
    (normF : List R → List R) (wqs : List (Mat R))
    (kvsG kvsU : List (Attention.KVWeights R)) (xs : List (Vec R))
    (hK : 0 < kvsG.length) (hdvd : kvsG.length ∣ wqs.length)
    (hlen : kvsU.length = wqs.length)
    (hshare : ∀ h, h < wqs.length →
      kvsU.get? h = kvsG.get? (h / (wqs.length / kvsG.length))) :
    Attention.groupedAttention normF wqs kvsG xs =
      Attention.ungroupedAttention normF wqs kvsU xs := by
  unfold Attention.groupedAttention Attention.ungroupedAttention
  rw [broadcastKV_eq_shared wqs kvsG kvsU hK hdvd hlen hshare]

/-- Witness for C6: one key/value head broadcast across two query
heads equals two-head attention with shared key/value weights. -/
theorem claim6_witness :
    Attention.groupedAttention (R := ℤ) id [[[1]], [[2]]]
        [⟨[[3]], [[4]]⟩] [[5]] =
      Attention.ungroupedAttention (R := ℤ) id [[[1]], [[2]]]
        [⟨[[3]], [[4]]⟩, ⟨[[3]], [[4]]⟩] [[5]] :=
  claim6_kv_broadcast_equivalence id [[[1]], [[2]]] [⟨[[3]], [[4]]⟩]
    [⟨[[3]], [[4]]⟩, ⟨[[3]], [[4]]⟩] [[5]]
    (by decide) (by decide) (by decide) (by decide)

/-- Helper: rotary-rotated projection distributes over appending, with
the start position of the second part offset by the first part's
length. -/
theorem rotProj_append {R : Type} [CommRing R] (rot : Nat → Vec R → Vec R)
    (w : Mat R) :
    ∀ (a b : List (Vec R)) (pos : Nat),
      Decoder.rotProj rot w pos (a ++ b) =
        Decoder.rotProj rot w pos a ++
          Decoder.rotProj rot w (pos + a.length) b := by
  intro a
  induction a with
  | nil => intro b pos; simp [Decoder.rotProj]
  | cons x xs ih =>
      intro b pos
      calc Decoder.rotProj rot w pos ((x :: xs) ++ b)
          = rot pos (matVec w x) ::
              Decoder.rotProj rot w (pos + 1) (xs ++ b) := rfl
        _ = rot pos (matVec w x) ::
              (Decoder.rotProj rot w (pos + 1) xs ++
                Decoder.rotProj rot w (pos + 1 + xs.length) b) := by
            rw [ih b (pos + 1)]
        _ = Decoder.rotProj rot w pos (x :: xs) ++
              Decoder.rotProj rot w (pos + (xs.length + 1)) b := by
            have h : pos + 1 + xs.length = pos + (xs.length + 1) := by omega
            rw [h]
            rfl

/-- Helper: rotary projection preserves sequence length. -/
theorem rotProj_length {R : Type} [CommRing R] (rot : Nat → Vec R → Vec R)
    (w : Mat R) :
    ∀ (xs : List (Vec R)) (pos : Nat),
      (Decoder.rotProj rot w pos xs).length = xs.length := by
  intro xs
  induction xs with
  | nil => intro pos; rfl
  | cons x rest ih => intro pos; simp [Decoder.rotProj, ih (pos + 1)]

/-- Helper: one attention output per query. -/
theorem attnOuts_length {R : Type} [CommRing R] (p : Decoder.DecLayerParams R)
    (validAll : List Bool) (ks vs : List (Vec R)) :
    ∀ (qs : List (Vec R)) (pos : Nat),
      (Decoder.attnOuts p validAll ks vs pos qs).length = qs.length := by
  intro qs
  induction qs with
  | nil => intro pos; rfl
  | cons q rest ih => intro pos; simp [Decoder.attnOuts, ih (pos + 1)]

/-- Helper: causal attention outputs distribute over appending the
query list, with the second part's positions offset. -/
theorem attnOuts_append {R : Type} [CommRing R] (p : Decoder.DecLayerParams R)
    (validAll : List Bool) (ks vs : List (Vec R)) :
    ∀ (qa qb : List (Vec R)) (pos : Nat),
      Decoder.attnOuts p validAll ks vs pos (qa ++ qb) =
        Decoder.attnOuts p validAll ks vs pos qa ++
          Decoder.attnOuts p validAll ks vs (pos + qa.length) qb := by
  intro qa
  induction qa with
  | nil => intro qb pos; simp [Decoder.attnOuts]
  | cons q rest ih =>
      intro qb pos
      calc Decoder.attnOuts p validAll ks vs pos ((q :: rest) ++ qb)
          = matVec p.wo (Decoder.maskedWSum p.normF
                (validAll.take (pos + 1))
                ((ks.take (pos + 1)).map (dot q)) (vs.take (pos + 1))) ::
              Decoder.attnOuts p validAll ks vs (pos + 1) (rest ++ qb) := rfl
        _ = matVec p.wo (Decoder.maskedWSum p.normF
                (validAll.take (pos + 1))
                ((ks.take (pos + 1)).map (dot q)) (vs.take (pos + 1))) ::
              (Decoder.attnOuts p validAll ks vs (pos + 1) rest ++
                Decoder.attnOuts p validAll ks vs (pos + 1 + rest.length)
                  qb) := by
            rw [ih qb (pos + 1)]
        _ = Decoder.attnOuts p validAll ks vs pos (q :: rest) ++
              Decoder.attnOuts p validAll ks vs (pos + (rest.length + 1))
                qb := by
            have h : pos + 1 + rest.length = pos + (rest.length + 1) := by
              omega
            rw [h]
            rfl

/-- Helper: lists agreeing on their first `N` entries agree on any
shorter prefix. -/
theorem take_eq_of_take_eq {α : Type} (N k : Nat) (l l' : List α)
    (hN : l.take N = l'.take N) (hk : k ≤ N) : l.take k = l'.take k := by
  have h1 : l.take k = (l.take N).take k := by
    rw [List.take_take, Nat.min_eq_left hk]
  have h2 : l'.take k = (l'.take N).take k := by
    rw [List.take_take, Nat.min_eq_left hk]
  rw [h1, h2, hN]

/-- Helper: attention outputs only depend on the masks, keys and
values at positions the causal window can reach. -/
theorem attnOuts_congr_prefix {R : Type} [CommRing R]
    (p : Decoder.DecLayerParams R) (v v' ks ks' vs vs' : _) (N : Nat)
    (hv : List.take N v = List.take N v')
    (hk : List.take N ks = List.take N ks')
    (hvs : List.take N vs = List.take N vs') :
    ∀ (qs : List (Vec R)) (pos : Nat), pos + qs.length ≤ N →
      Decoder.attnOuts p v ks vs pos qs =
        Decoder.attnOuts p v' ks' vs' pos qs := by
  intro qs
  induction qs with
  | nil => intro pos _; rfl
  | cons q rest ih =>
      intro pos hle
      simp only [Decoder.attnOuts]
      rw [take_eq_of_take_eq N (pos + 1) v v' hv (by simp at hle; omega),
        take_eq_of_take_eq N (pos + 1) ks ks' hk (by simp at hle; omega),
        take_eq_of_take_eq N (pos + 1) vs vs' hvs (by simp at hle; omega),
        ih (pos + 1) (by simp at hle; omega)]

/-- Helper: explicit form of the cache returned by one decoder layer —
the cached keys/values with the new projections concatenated along the
sequence axis. -/
theorem decLayer_cache_eq {R : Type} [CommRing R]
    (p : Decoder.DecLayerParams R) (mask : List Bool)
    (c : Decoder.KeyValueCache R) (xs : List (Vec R)) :
    (Decoder.decLayerForward p mask c xs).2 =
      { key := c.key ++ Decoder.rotProj p.rot p.wk c.key.length
          (xs.map p.attnNorm),
        value := c.value ++ (xs.map p.attnNorm).map (matVec p.wv) } :=
  rfl

/-- Helper: explicit form of the hidden states returned by one decoder
layer. -/
theorem decLayer_out_eq {R : Type} [CommRing R]
    (p : Decoder.DecLayerParams R) (mask : List Bool)
    (c : Decoder.KeyValueCache R) (xs : List (Vec R)) :
    (Decoder.decLayerForward p mask c xs).1 =
      ((xs.zip (Decoder.attnOuts p
          (List.replicate c.key.length true ++ mask)
          (c.key ++ Decoder.rotProj p.rot p.wk c.key.length
            (xs.map p.attnNorm))
          (c.value ++ (xs.map p.attnNorm).map (matVec p.wv))
          c.key.length
          (Decoder.rotProj p.rot p.wq c.key.length
            (xs.map p.attnNorm)))).map
        fun pr => vecAdd pr.1 pr.2).map fun h => vecAdd h (p.ffn h) :=
  rfl

/-- Helper: a decoder layer returns one hidden state per input
position. -/
theorem decLayer_out_length {R : Type} [CommRing R]
    (p : Decoder.DecLayerParams R) (mask : List Bool)
    (c : Decoder.KeyValueCache R) (xs : List (Vec R)) :
    (Decoder.decLayerForward p mask c xs).1.length = xs.length := by
  rw [decLayer_out_eq]
  simp [attnOuts_length, rotProj_length]

/-- Helper: the cache returned after processing `a ++ b` in one call
equals the cache returned after processing `a` and then `b` with the
intermediate cache (for any masks: the cache does not depend on the
mask). -/
theorem decLayer_cache_split {R : Type} [CommRing R]
    (p : Decoder.DecLayerParams R) (c : Decoder.KeyValueCache R)
    (a b : List (Vec R)) (ma mb : List Bool) :
    (Decoder.decLayerForward p (ma ++ mb) c (a ++ b)).2 =
      (Decoder.decLayerForward p mb
        (Decoder.decLayerForward p ma c a).2 b).2 := by
  rw [decLayer_cache_eq, decLayer_cache_eq, decLayer_cache_eq]
  simp [List.map_append, rotProj_append, rotProj_length,
    List.append_assoc]

/-- Helper: processing `a ++ b` in one decoder-layer call (with the
`a`-positions all valid) produces the hidden states of processing `a`
followed by processing `b` with the intermediate cache. Requires the
cache invariant that keys and values cover the same positions. -/
theorem decLayer_out_split {R : Type} [CommRing R]
    (p : Decoder.DecLayerParams R) (c : Decoder.KeyValueCache R)
    (a b : List (Vec R)) (mb : List Bool)
    (hcv : c.value.length = c.key.length) :
    (Decoder.decLayerForward p (List.replicate a.length true ++ mb) c
        (a ++ b)).1 =
      (Decoder.decLayerForward p (List.replicate a.length true) c a).1 ++
        (Decoder.decLayerForward p mb
          (Decoder.decLayerForward p (List.replicate a.length true) c a).2
          b).1 := by
  rw [decLayer_out_eq, decLayer_out_eq, decLayer_out_eq, decLayer_cache_eq]
  simp only [List.map_append, rotProj_append, rotProj_length,
    List.length_map, List.length_append, List.length_replicate,
    attnOuts_append, attnOuts_length, List.replicate_add, List.append_assoc]
  rw [List.zip_append (by simp [attnOuts_length, rotProj_length])]
  simp only [List.map_append]
  congr 3
  refine congrArg a.zip ?_
  apply attnOuts_congr_prefix p _ _ _ _ _ _ (c.key.length + a.length)
  · rw [← List.append_assoc, ← List.replicate_add,
      List.take_left' (by simp), List.take_of_length_le (by simp)]
  · rw [← List.append_assoc,
      List.take_left' (by simp [rotProj_length]),
      List.take_of_length_le (by simp [rotProj_length])]
  · rw [← List.append_assoc,
      List.take_left' (by simp [hcv]),
      List.take_of_length_le (by simp [hcv])]
  · simp [rotProj_length]

/-- Helper: one step of the decoder layer stack. -/
theorem runLayers_cons {R : Type} [CommRing R] (mask : List Bool)
    (pc : Decoder.DecLayerParams R × Decoder.KeyValueCache R)
    (rest : List (Decoder.DecLayerParams R × Decoder.KeyValueCache R))
    (h : List (Vec R)) :
    Decoder.runLayers mask (pc :: rest) h =
      ((Decoder.decLayerForward pc.1 mask pc.2 h).1 ::
        (Decoder.runLayers mask rest
          (Decoder.decLayerForward pc.1 mask pc.2 h).1).1,
       (Decoder.decLayerForward pc.1 mask pc.2 h).2 ::
        (Decoder.runLayers mask rest
          (Decoder.decLayerForward pc.1 mask pc.2 h).1).2) :=
  rfl

/-- Helper: running the layer stack on `a ++ b` (every `a`-position
valid) equals running it on `a`, then on `b` with the per-layer caches
produced by the `a` run: per-layer outputs concatenate and the final
caches are those of the `b` run. -/
theorem runLayers_split {R : Type} [CommRing R] (mb : List Bool) :
    ∀ (lcs : List (Decoder.DecLayerParams R × Decoder.KeyValueCache R))
      (ma : List Bool) (a b : List (Vec R)),
      ma = List.replicate a.length true →
      (∀ pc ∈ lcs, pc.2.value.length = pc.2.key.length) →
      Decoder.runLayers (ma ++ mb) lcs (a ++ b) =
        (List.zipWith (fun x y => x ++ y)
            (Decoder.runLayers ma lcs a).1
            (Decoder.runLayers mb
              ((lcs.map Prod.fst).zip (Decoder.runLayers ma lcs a).2)
              b).1,
          (Decoder.runLayers mb
            ((lcs.map Prod.fst).zip (Decoder.runLayers ma lcs a).2)
            b).2) := by
  intro lcs
  induction lcs with
  | nil => intro ma a b hma hinv; rfl
  | cons pc rest ih =>
      intro ma a b hma hinv
      subst hma
      have hcv : pc.2.value.length = pc.2.key.length := hinv pc (by simp)
      have hrest : ∀ q ∈ rest, q.2.value.length = q.2.key.length :=
        fun q hq => hinv q (by simp [hq])
      rw [runLayers_cons, runLayers_cons]
      rw [decLayer_out_split pc.1 pc.2 a b mb hcv]
      rw [decLayer_cache_split pc.1 pc.2 a b (List.replicate a.length true) mb]
      rw [ih (List.replicate a.length true)
        (Decoder.decLayerForward pc.1 (List.replicate a.length true) pc.2 a).1
        (Decoder.decLayerForward pc.1 mb
          (Decoder.decLayerForward pc.1 (List.replicate a.length true)
            pc.2 a).2 b).1
        (by rw [decLayer_out_length]) hrest]
      dsimp only
      rw [List.map_cons, List.zip_cons_cons, runLayers_cons]
      dsimp only
      rw [List.zipWith_cons_cons]

/-- Helper: the stack produces one hidden-state list per layer. -/
theorem runLayers_out_count {R : Type} [CommRing R] (mask : List Bool) :
    ∀ (lcs : List (Decoder.DecLayerParams R × Decoder.KeyValueCache R))
      (h : List (Vec R)),
      (Decoder.runLayers mask lcs h).1.length = lcs.length := by
  intro lcs
  induction lcs with
  | nil => intro h; rfl
  | cons pc rest ih => intro h; simp [runLayers_cons, ih]

/-- Helper: the stack produces one cache entry per layer. -/
theorem runLayers_cache_count {R : Type} [CommRing R] (mask : List Bool) :
    ∀ (lcs : List (Decoder.DecLayerParams R × Decoder.KeyValueCache R))
      (h : List (Vec R)),
      (Decoder.runLayers mask lcs h).2.length = lcs.length := by
  intro lcs
  induction lcs with
  | nil => intro h; rfl
  | cons pc rest ih => intro h; simp [runLayers_cons, ih]

/-- Helper: every per-layer hidden-state list has one entry per input
position. -/
theorem runLayers_out_lengths {R : Type} [CommRing R] (mask : List Bool) :
    ∀ (lcs : List (Decoder.DecLayerParams R × Decoder.KeyValueCache R))
      (h : List (Vec R)) (o : List (Vec R)),
      o ∈ (Decoder.runLayers mask lcs h).1 → o.length = h.length := by
  intro lcs
  induction lcs with
  | nil => intro h o ho; simp [Decoder.runLayers] at ho
  | cons pc rest ih =>
      intro h o ho
      rw [runLayers_cons] at ho
      rcases List.mem_cons.mp ho with h1 | h1
      · rw [h1]; exact decLayer_out_length _ _ _ _
      · rw [ih _ _ h1, decLayer_out_length]

/-- Helper: the derived padding mask of a sequence without padding ids
is all-true. -/
theorem map_ne_eq_replicate (c : Int) :
    ∀ (l : List Int), (∀ t ∈ l, t ≠ c) →
      (l.map fun t => decide (t ≠ c)) = List.replicate l.length true := by
  intro l
  induction l with
  | nil => intro _; rfl
  | cons t rest ih =>
      intro hl
      simp only [List.map_cons, List.length_cons, List.replicate_succ]
      rw [ih (fun x hx => hl x (by simp [hx]))]
      have : t ≠ c := hl t (by simp)
      simp [this]

/-- Helper: dropping the first `n` positions from pointwise-appended
lists recovers the second summands when the first summands all have
length `n`. -/
theorem zipWith_append_drop {α : Type} (n : Nat) :
    ∀ (las lbs : List (List α)), las.length = lbs.length →
      (∀ o ∈ las, o.length = n) →
      (List.zipWith (fun x y => x ++ y) las lbs).map (List.drop n) = lbs := by
  intro las
  induction las with
  | nil =>
      intro lbs hlen _
      rw [List.length_nil] at hlen
      rw [(List.length_eq_zero.mp hlen.symm)]
      rfl
  | cons x xs ih =>
      intro lbs hlen hall
      cases lbs with
      | nil => simp at hlen
      | cons y ys =>
          simp only [List.zipWith_cons_cons, List.map_cons]
          rw [ih ys (by simpa using hlen) (fun o ho => hall o (by simp [ho]))]
          have hx : x.length = n := hall x (by simp)
          rw [← hx, List.drop_left]

/-- Helper: explicit form of the decoder forward pass. -/
theorem decoderForward_eq {R : Type} [CommRing R] (m : Decoder.DecoderModel R)
    (ids : List Int) (cache : Option (List (Decoder.KeyValueCache R))) :
    Decoder.decoderForward m ids cache =
      { layer_hidden_states := (Decoder.runLayers
          (ids.map fun t => decide (t ≠ m.padding_id))
          (m.layers.zip (cache.getD (Decoder.emptyCache m.layers.length)))
          (ids.map m.embed)).1,
        cache := (Decoder.runLayers
          (ids.map fun t => decide (t ≠ m.padding_id))
          (m.layers.zip (cache.getD (Decoder.emptyCache m.layers.length)))
          (ids.map m.embed)).2 } :=
  rfl

/-- C1 (amended): for every token sequence split into a prefix and a
suffix such that no prefix token equals the padding id, running the
decoder once over the concatenated sequence yields hidden states at
the suffix positions (at every layer) equal to first running the
decoder over the prefix with cache output and then running it over the
suffix with that returned cache supplied. (Exact equality in the
exact-arithmetic model stands in for floating tolerance. The
restriction on the prefix is forced by `claim1_counterexample`: the
derived padding mask of the second call covers only the suffix, and
the cache stores no mask bits for the prefix positions, so a padding
token in the prefix is masked out of the single full run but attended
to through the cache.) -/
theorem claim1_incremental_decoding_amended {R : Type} [CommRing R]
    (m : Decoder.DecoderModel R) (pre suf : List Int)
    (hpre : ∀ t ∈ pre, t ≠ m.padding_id) :
    (Decoder.decoderForward m suf
        (some (Decoder.decoderForward m pre none).cache)).layer_hidden_states
      =
      ((Decoder.decoderForward m (pre ++ suf)
          none).layer_hidden_states).map (List.drop pre.length) := by
  rw [decoderForward_eq, decoderForward_eq, decoderForward_eq]
  dsimp only [Option.getD]
  have hmask : pre.map (fun t => decide (t ≠ m.padding_id)) =
      List.replicate (pre.map m.embed).length true := by
    rw [List.length_map]
    exact map_ne_eq_replicate m.padding_id pre hpre
  have hinv : ∀ pc ∈ m.layers.zip (Decoder.emptyCache (R := R)
      m.layers.length), pc.2.value.length = pc.2.key.length := by
    intro pc hpc
    have h2 := (List.of_mem_zip hpc).2
    have h3 := List.eq_of_mem_replicate h2
    rw [h3]
  have hsplit := runLayers_split
    (suf.map fun t => decide (t ≠ m.padding_id))
    (m.layers.zip (Decoder.emptyCache m.layers.length))
    (pre.map fun t => decide (t ≠ m.padding_id))
    (pre.map m.embed) (suf.map m.embed) hmask hinv
  rw [List.map_append, List.map_append, hsplit]
  dsimp only
  have hfst : (List.map Prod.fst
      (m.layers.zip (Decoder.emptyCache (R := R) m.layers.length))) =
      m.layers :=
    List.map_fst_zip _ _ (by simp [Decoder.emptyCache])
  rw [hfst]
  refine (zipWith_append_drop pre.length _ _ ?_ ?_).symm
  · rw [runLayers_out_count, runLayers_out_count]
    simp [List.length_zip, runLayers_cache_count, Decoder.emptyCache]
  · intro o ho
    rw [runLayers_out_lengths _ _ _ o ho, List.length_map]

/-- C1 is false as stated: with padding id 0, prefix `[0]` (a padding
token) and suffix `[1]`, a one-layer decoder (identity rotation,
identity score normalisation — admissible instances of the abstracted
nonlinearities) yields different suffix hidden states in the cached
run and in the single full run: the full run masks the padding prefix
position out of attention, while the cached run attends to its cached
key/value. -/
theorem claim1_counterexample :
    ¬ ((Decoder.decoderForward (R := ℤ)
        { padding_id := 0, embed := fun t => [t + 1],
          layers := [{ wq := [[1]], wk := [[1]], wv := [[1]], wo := [[1]],
                       rot := fun _ v => v, normF := id,
                       attnNorm := id, ffn := id }] }
        [1]
        (some (Decoder.decoderForward (R := ℤ)
          { padding_id := 0, embed := fun t => [t + 1],
            layers := [{ wq := [[1]], wk := [[1]], wv := [[1]],
                         wo := [[1]], rot := fun _ v => v, normF := id,
                         attnNorm := id, ffn := id }] }
          [0] none).cache)).layer_hidden_states =
      ((Decoder.decoderForward (R := ℤ)
          { padding_id := 0, embed := fun t => [t + 1],
            layers := [{ wq := [[1]], wk := [[1]], wv := [[1]],
                         wo := [[1]], rot := fun _ v => v, normF := id,
                         attnNorm := id, ffn := id }] }
          ([0] ++ [1]) none).layer_hidden_states).map (List.drop 1)) := by
  decide

/-- Witness for the amended C1 at a concrete model and a padding-free
prefix. -/
theorem claim1_witness :
    (Decoder.decoderForward (R := ℤ)
        { padding_id := 0, embed := fun t => [t + 1],
          layers := [{ wq := [[1]], wk := [[1]], wv := [[1]], wo := [[1]],
                       rot := fun _ v => v, normF := id,
                       attnNorm := id, ffn := id }] }
        [2]
        (some (Decoder.decoderForward (R := ℤ)
          { padding_id := 0, embed := fun t => [t + 1],
            layers := [{ wq := [[1]], wk := [[1]], wv := [[1]],
                         wo := [[1]], rot := fun _ v => v, normF := id,
                         attnNorm := id, ffn := id }] }
          [1] none).cache)).layer_hidden_states =
      ((Decoder.decoderForward (R := ℤ)
          { padding_id := 0, embed := fun t => [t + 1],
            layers := [{ wq := [[1]], wk := [[1]], wv := [[1]],
                         wo := [[1]], rot := fun _ v => v, normF := id,
                         attnNorm := id, ffn := id }] }
          ([1] ++ [2]) none).layer_hidden_states).map (List.drop 1) :=
  claim1_incremental_decoding_amended
    { padding_id := 0, embed := fun t => [t + 1],
      layers := [{ wq := [[1]], wk := [[1]], wv := [[1]], wo := [[1]],
                   rot := fun _ v => v, normF := id,
                   attnNorm := id, ffn := id }] }
    [1] [2] (by decide)
